import Mathlib

/-!
# auto-bind-js: a shallow embedding and verification

This file embeds the `auto-bind-js` module (`src/index.mjs`, with an identical
CommonJS copy) in Lean 4 and proves properties of it.

The embedding models the fragment of the JavaScript object model the module
touches: a heap of objects, each with an optional prototype link and an ordered
list of own properties; property descriptors that are either data descriptors
(value, writable, enumerable, configurable) or accessor descriptors holding one
of the getter closures this module creates; function values that are either
original methods (identified by an id, with behaviour given by a semantic
environment) or bind-wrappers (`f.bind(receiver)`), each wrapper carrying a
fresh allocation tag so that reference identity of distinct `bind` results is
observable.  Prototype chains are walked with fuel equal to the heap size;
well-formed heaps (`ProtoDec`) have strictly decreasing prototype links, which
makes the fuel sufficient.
-/

set_option maxHeartbeats 1000000

namespace AutoBindJS

/-- A JavaScript property key: a string or a symbol (identified by a number). -/
inductive Key where
  | str (s : String)
  | sym (n : Nat)
deriving DecidableEq, Repr

/-- A function value: an original method (behaviour given by a semantic
environment, indexed by `id`) or the result of `f.bind(receiver)`.  Each bind
result carries a fresh allocation `tag`, so two bind-wrappers created at
different times are distinct values, modelling JS reference identity. -/
inductive Fn where
  | orig (id : Nat)
  | bound (tag : Nat) (f : Fn) (receiver : Nat)
deriving DecidableEq, Repr

/-- A JavaScript value (the fragment the module manipulates). -/
inductive Val where
  | undef
  | int (n : Int)
  | str (s : String)
  | obj (r : Nat)
  | fn (f : Fn)
deriving DecidableEq, Repr

/-- The getter closures created by this module: the lazy-binding getter of
`bindLazy` (closing over the original function, the instance and the method
key) and the getter returned by the `bound` method decorator (closing over the
original function, the declaration-site object and the key). -/
inductive Getter where
  | lazyGet (f : Fn) (selfRef : Nat) (method : Key)
  | boundGet (f : Fn) (targetRef : Nat) (key : Key)
deriving DecidableEq, Repr

/-- A property descriptor: data or accessor (getter only; the module never
creates setters). -/
inductive Descr where
  | data (value : Val) (writable enumerable configurable : Bool)
  | accessor (get : Getter) (enumerable configurable : Bool)
deriving DecidableEq, Repr

/-- An object: an optional prototype reference (`none` stands for having
reached `Object.prototype`/`null`, where every walk in the module stops) and an
ordered own-property list. -/
structure Obj where
  proto : Option Nat
  props : List (Key × Descr)
deriving DecidableEq, Repr

/-- The heap: objects indexed by reference, plus a counter handing out fresh
allocation tags for bind-wrappers. -/
structure Heap where
  objs : List Obj
  nextTag : Nat
deriving DecidableEq, Repr

def getObj (h : Heap) (r : Nat) : Option Obj := h.objs[r]?

/-- `Object.getOwnPropertyDescriptor(o, k)`. -/
def getOwnD (o : Obj) (k : Key) : Option Descr :=
  (o.props.find? (fun p => p.1 == k)).map (fun p => p.2)

/-- Own-property descriptor of object `r` in heap `h` at key `k`. -/
def ownDescr (h : Heap) (r : Nat) (k : Key) : Option Descr :=
  (getObj h r).bind (fun o => getOwnD o k)

/-- `Object.getPrototypeOf(r)` (of a missing object: `none`). -/
def protoOf (h : Heap) (r : Nat) : Option Nat :=
  (getObj h r).bind (fun o => o.proto)

/-- Update-or-append an own property, as `Object.defineProperty` does on a
configurable property: an existing key keeps its slot, a new key is appended. -/
def setProp : List (Key × Descr) → Key → Descr → List (Key × Descr)
  | [], k, d => [(k, d)]
  | p :: ps, k, d => if p.1 == k then (k, d) :: ps else p :: setProp ps k d

/-- `Object.defineProperty(r, k, d)` (on a missing object: no-op). -/
def defineProp (h : Heap) (r : Nat) (k : Key) (d : Descr) : Heap :=
  match getObj h r with
  | none => h
  | some o => { h with objs := h.objs.set r { o with props := setProp o.props k d } }

/-- Find the first descriptor for `k` along the prototype chain starting at
object `fuel`-boundedly; mirrors own-then-prototype resolution, stopping at the
`Object.prototype` boundary (`proto = none`). -/
def getDescr (h : Heap) (k : Key) : Nat → Nat → Option Descr
  | 0, _ => none
  | fuel + 1, r =>
    match getObj h r with
    | none => none
    | some o =>
      match getOwnD o k with
      | some d => some d
      | none =>
        match o.proto with
        | some p => getDescr h k fuel p
        | none => none

/-- Run one of the module's getters with `this = thisRef`
(`src/index.mjs:126-136` for the lazy getter, `src/index.mjs:269-283` for the
decorator getter).  Both allocate a fresh bind-wrapper and memoise it as an own
data property `{writable: true, enumerable: false, configurable: true}`. -/
def runGetter (h : Heap) (g : Getter) (thisRef : Nat) : Val × Heap :=
  match g with
  | .lazyGet f selfRef method =>
    let bf := Fn.bound h.nextTag f selfRef
    let h1 : Heap := { h with nextTag := h.nextTag + 1 }
    (Val.fn bf, defineProp h1 selfRef method (Descr.data (Val.fn bf) true false true))
  | .boundGet f targetRef key =>
    if thisRef == targetRef then (Val.fn f, h)
    else
      let bf := Fn.bound h.nextTag f thisRef
      let h1 : Heap := { h with nextTag := h.nextTag + 1 }
      (Val.fn bf, defineProp h1 thisRef key (Descr.data (Val.fn bf) true false true))

/-- The `Get` operation `r[k]`: find the first descriptor along the chain; a
data descriptor yields its value, an accessor runs its getter with the original
receiver as `this` (possibly mutating the heap). -/
def getValue (h : Heap) (r : Nat) (k : Key) : Val × Heap :=
  match getDescr h k h.objs.length r with
  | some (Descr.data v _ _ _) => (v, h)
  | some (Descr.accessor g _ _) => runGetter h g r
  | none => (Val.undef, h)

/-- Calling a function value with an explicit `this` and arguments.  `sem`
gives each original method's behaviour as a pure function of receiver and
arguments, returning a result or a thrown error.  A bind-wrapper ignores the
caller-supplied `this` and forwards to its stored receiver. -/
def call (sem : Nat → Val → List Val → Except String Val) :
    Fn → Val → List Val → Except String Val
  | .orig id, this, args => sem id this args
  | .bound _ f r, _, args => call sem f (Val.obj r) args

/-! ## The module (`src/index.mjs`) -/

/-- `BUILTIN_OBJECT_METHODS` (`src/index.mjs:16-28`). -/
def BUILTIN_OBJECT_METHODS : List String :=
  ["constructor", "toString", "toLocaleString", "valueOf", "hasOwnProperty",
   "isPrototypeOf", "propertyIsEnumerable", "__defineGetter__",
   "__defineSetter__", "__lookupGetter__", "__lookupSetter__"]

/-- One prototype level of `getAllMethodNames`: string keys first (skipping
`constructor`), then symbol keys, keeping keys whose own descriptor is a data
descriptor with callable value (`src/index.mjs:38-54`). -/
def levelMethodKeys (o : Obj) : List Key :=
  (o.props.filterMap (fun p =>
    match p with
    | (Key.str s, Descr.data (Val.fn _) _ _ _) =>
      if s == "constructor" then none else some (Key.str s)
    | _ => none)) ++
  (o.props.filterMap (fun p =>
    match p with
    | (Key.sym n, Descr.data (Val.fn _) _ _ _) => some (Key.sym n)
    | _ => none))

/-- The prototype-chain walk of `getAllMethodNames` (`src/index.mjs:37-57`),
starting at a prototype reference and stopping at the `Object.prototype`
boundary. -/
def methodNamesWalk (h : Heap) : Nat → Option Nat → List Key
  | 0, _ => []
  | _, none => []
  | fuel + 1, some r =>
    match getObj h r with
    | none => []
    | some o => levelMethodKeys o ++ methodNamesWalk h fuel o.proto

/-- `Set` insertion-order deduplication: keep the first occurrence of each
key. -/
def dedupKeys : List Key → List Key → List Key
  | _, [] => []
  | seen, k :: rest =>
    if k ∈ seen then dedupKeys seen rest else k :: dedupKeys (k :: seen) rest

/-- `getAllMethodNames(obj)` (`src/index.mjs:33-60`): walk the prototype chain
starting one level above the instance, collect callable own members, dedupe
with first-occurrence order (the JS `Set`). -/
def getAllMethodNames (h : Heap) (r : Nat) : List Key :=
  dedupKeys []
    (match getObj h r with
     | some o => methodNamesWalk h h.objs.length o.proto
     | none => [])

/-- The options structure of `autoBind` (`include`/`exclude`/`pattern`/`lazy`).
`incl` stands for the JS `include` field (a Lean keyword), `excl` for
`exclude`; the regular expression is modelled as its string predicate. -/
structure Options where
  incl : Option (List Key) := none
  excl : Option (List Key) := none
  pattern : Option (String → Bool) := none
  lazy : Bool := false

/-- `filterMethods(methods, options)` (`src/index.mjs:65-91`): drop built-in
root names (symbols exempt), then the `include` filter, then `exclude`, then
`pattern` (which drops all symbols). -/
def filterMethods (methods : List Key) (options : Options) : List Key :=
  let f1 := methods.filter (fun m =>
    match m with
    | Key.sym _ => true
    | Key.str s => !(BUILTIN_OBJECT_METHODS.contains s))
  let f2 := match options.incl with
    | some inc => f1.filter (fun m => inc.contains m)
    | none => f1
  let f3 := match options.excl with
    | some exc => f2.filter (fun m => !(exc.contains m))
    | none => f2
  match options.pattern with
  | some p => f3.filter (fun m =>
      match m with
      | Key.str s => p s
      | Key.sym _ => false)
  | none => f3

/-- `bindEager(self, methods)` (`src/index.mjs:96-108`): for each method name,
read `self[method]`; when the value is callable, define an own data property
holding `val.bind(self)` with `{writable: true, configurable: true,
enumerable: false}`. -/
def bindEager (h : Heap) (selfR : Nat) : List Key → Heap
  | [] => h
  | m :: rest =>
    let p := getValue h selfR m
    let h2 : Heap :=
      match p.1 with
      | Val.fn f =>
        defineProp { p.2 with nextTag := p.2.nextTag + 1 } selfR m
          (Descr.data (Val.fn (Fn.bound p.2.nextTag f selfR)) true false true)
      | _ => p.2
    bindEager h2 selfR rest

/-- `findDescriptorInChain(obj, key)` (`src/index.mjs:141-149`): walk from the
object's prototype, stopping at the `Object.prototype` boundary. -/
def findDescriptorInChain (h : Heap) (r : Nat) (k : Key) : Option Descr :=
  match protoOf h r with
  | some p => getDescr h k h.objs.length p
  | none => none

/-- The descriptor `bindLazy` resolves for a method name
(`src/index.mjs:115-117`): the own descriptor of the immediate prototype, or
else the first descriptor found walking the chain. -/
def lazyLookup (h : Heap) (selfR : Nat) (m : Key) : Option Descr :=
  match protoOf h selfR with
  | none => none
  | some p =>
    match ownDescr h p m with
    | some d => some d
    | none => findDescriptorInChain h selfR m

/-- `bindLazy(self, methods)` (`src/index.mjs:113-139`): for each method name,
resolve the descriptor; if it is absent or its value not callable, `continue`
(installing nothing); otherwise install an own accessor whose getter, on first
read, binds the captured original function and memoises it as a data
property. -/
def bindLazy (h : Heap) (selfR : Nat) : List Key → Heap
  | [] => h
  | m :: rest =>
    let h2 : Heap :=
      match lazyLookup h selfR m with
      | some (Descr.data (Val.fn f) _ _ _) =>
        defineProp h selfR m (Descr.accessor (Getter.lazyGet f selfR m) false true)
      | _ => h
    bindLazy h2 selfR rest

/-- `autoBind(self, options)` (`src/index.mjs:162-179`), with `options` either
absent (`none`) or an options structure.  Returns the mutated heap and the same
instance reference. -/
def autoBind (h : Heap) (selfR : Nat) (options : Option Options) : Heap × Nat :=
  let methods := filterMethods (getAllMethodNames h selfR) (options.getD {})
  let h2 : Heap :=
    match options with
    | some o => if o.lazy then bindLazy h selfR methods else bindEager h selfR methods
    | none => bindEager h selfR methods
  (h2, selfR)

/-- `REACT_LIFECYCLE_METHODS` (`src/index.mjs:183-201`). -/
def REACT_LIFECYCLE_METHODS : List String :=
  ["render", "componentDidMount", "componentDidUpdate", "componentWillUnmount",
   "shouldComponentUpdate", "getSnapshotBeforeUpdate", "getDerivedStateFromProps",
   "getDerivedStateFromError", "componentDidCatch", "UNSAFE_componentWillMount",
   "UNSAFE_componentWillReceiveProps", "UNSAFE_componentWillUpdate",
   "getDefaultProps", "getInitialState", "componentWillMount",
   "componentWillReceiveProps", "componentWillUpdate"]

/-- `autoBindReact(self, options)` (`src/index.mjs:210-216`): merge the fixed
lifecycle list into the caller's `exclude` list and delegate to `autoBind`. -/
def autoBindReact (h : Heap) (selfR : Nat) (options : Options) : Heap × Nat :=
  let exclude := options.excl.getD [] ++ REACT_LIFECYCLE_METHODS.map Key.str
  autoBind h selfR (some { options with excl := some exclude })

/-- A constructor: display name, `prototype` object reference, own static
properties (string-keyed, as `Object.getOwnPropertyNames` enumerates), and the
own properties its body assigns to the fresh instance given the arguments. -/
structure Ctor where
  name : String
  protoRef : Nat
  statics : List (String × Descr)
  mkProps : List Val → List (Key × Descr)

/-- `new C(args)`: allocate a fresh object whose prototype is `C.prototype`
and whose own properties are assigned by the body. -/
def construct (h : Heap) (c : Ctor) (args : List Val) : Heap × Nat :=
  ({ h with objs := h.objs ++ [{ proto := some c.protoRef, props := c.mkProps args }] },
   h.objs.length)

/-- The reserved function own keys skipped when copying statics
(`src/index.mjs:248`). -/
def RESERVED_CTOR_KEYS : List String := ["length", "name", "prototype", "arguments", "caller"]

/-- The result of `boundClass` as a constructor-like value: it remembers the
original constructor (the wrapper body closes over it), carries the copied
display name, shares the original's `prototype` object, and holds the statics
copied over minus the reserved keys (`src/index.mjs:233-254`). -/
structure Wrapped where
  original : Ctor
  name : String
  protoRef : Nat
  statics : List (String × Descr)

/-- `boundClass(target)` (`src/index.mjs:233-254`). -/
def boundClass (c : Ctor) : Wrapped :=
  { original := c
    name := c.name
    protoRef := c.protoRef
    statics := c.statics.filter (fun p => !(RESERVED_CTOR_KEYS.contains p.1)) }

/-- `new Wrapped(args)` (`src/index.mjs:236-240`): construct via the original
constructor, apply `autoBind` with default configuration, return the
instance. -/
def constructWrapped (h : Heap) (w : Wrapped) (args : List Val) : Heap × Nat :=
  let p := construct h w.original args
  autoBind p.1 p.2 none

/-- Static-property lookup on a constructor-like value. -/
def staticLookup (statics : List (String × Descr)) (k : String) : Option Descr :=
  (statics.find? (fun p => p.1 == k)).map (fun p => p.2)

/-- `bound(target, key, descriptor)` (`src/index.mjs:259-285`): throw a
`TypeError` when the descriptor is absent or its value is not callable; else
return the replacement accessor descriptor. -/
def bound (targetR : Nat) (k : Key) (descriptor : Option Descr) : Except String Descr :=
  match descriptor with
  | some (Descr.data (Val.fn f) _ _ _) =>
    Except.ok (Descr.accessor (Getter.boundGet f targetR k) false true)
  | _ => Except.error "@bound can only be applied to methods"

/-- `instanceof`: walk the candidate's prototype chain looking for the
constructor's `prototype` object. -/
def protoChainContains (h : Heap) : Nat → Option Nat → Nat → Bool
  | 0, _, _ => false
  | _, none, _ => false
  | fuel + 1, some r, target =>
    if r == target then true
    else
      match getObj h r with
      | none => false
      | some o => protoChainContains h fuel o.proto target

def instanceOf (h : Heap) (r : Nat) (protoR : Nat) : Bool :=
  match getObj h r with
  | none => false
  | some o => protoChainContains h h.objs.length o.proto protoR

/-! ## Well-formedness -/

/-- Prototype links strictly decrease: prototypes are allocated before the
objects that inherit from them.  Makes every chain walk with fuel
`h.objs.length` complete. -/
def ProtoDec (h : Heap) : Prop :=
  ∀ r o p, getObj h r = some o → o.proto = some p → p < r

/-- Decidable check for `ProtoDec` on concrete heaps. -/
def protoDecB (h : Heap) : Bool :=
  (List.range h.objs.length).all (fun r =>
    match getObj h r with
    | none => true
    | some o =>
      match o.proto with
      | none => true
      | some p => decide (p < r))

/-- Every descriptor in the heap is a data descriptor (no accessors anywhere):
the ordinary situation before any lazy binding has happened. -/
def Descr.isData : Descr → Bool
  | .data _ _ _ _ => true
  | .accessor _ _ _ => false

def dataOnly (h : Heap) : Bool :=
  h.objs.all (fun o => o.props.all (fun p => p.2.isData))

theorem protoDecB_iff (h : Heap) : protoDecB h = true → ProtoDec h := by
  intro hb r o p hro hp
  have hr : r < h.objs.length := by
    by_contra hlt
    push_neg at hlt
    have : getObj h r = none := by
      simp [getObj, List.getElem?_eq_none hlt]
    simp [this] at hro
  have := (List.all_eq_true.mp hb) r (List.mem_range.mpr hr)
  simp only [hro, hp] at this
  exact of_decide_eq_true this

/-! ## Basic frame lemmas -/

theorem getObj_lt {h : Heap} {r : Nat} {o : Obj} (hr : getObj h r = some o) :
    r < h.objs.length := by
  by_contra hlt
  push_neg at hlt
  simp [getObj, List.getElem?_eq_none hlt] at hr

theorem getObj_mem {h : Heap} {r : Nat} {o : Obj} (hr : getObj h r = some o) :
    o ∈ h.objs := by
  unfold getObj at hr
  exact List.getElem?_mem hr

theorem getObj_tag {h : Heap} {t : Nat} (r : Nat) :
    getObj { h with nextTag := t } r = getObj h r := rfl

theorem defineProp_none {h : Heap} {r : Nat} (hg : getObj h r = none)
    (k : Key) (d : Descr) : defineProp h r k d = h := by
  unfold defineProp
  rw [hg]

theorem length_defineProp (h : Heap) (r : Nat) (k : Key) (d : Descr) :
    (defineProp h r k d).objs.length = h.objs.length := by
  unfold defineProp
  cases hg : getObj h r with
  | none => rfl
  | some o => simp [List.length_set]

theorem getObj_defineProp_ne {h : Heap} {r x : Nat} (hx : x ≠ r) (k : Key) (d : Descr) :
    getObj (defineProp h r k d) x = getObj h x := by
  unfold defineProp
  cases hg : getObj h r with
  | none => rfl
  | some o =>
    show (h.objs.set r _)[x]? = _
    rw [List.getElem?_set_ne (fun he => hx he.symm)]
    rfl

theorem getObj_defineProp_self {h : Heap} {r : Nat} {o : Obj} (hg : getObj h r = some o)
    (k : Key) (d : Descr) :
    getObj (defineProp h r k d) r = some { o with props := setProp o.props k d } := by
  unfold defineProp
  rw [hg]
  show (h.objs.set r _)[r]? = _
  rw [List.getElem?_set_self (getObj_lt hg)]

theorem proto_defineProp (h : Heap) (r : Nat) (k : Key) (d : Descr) (x : Nat) :
    (getObj (defineProp h r k d) x).map Obj.proto = (getObj h x).map Obj.proto := by
  by_cases hx : x = r
  · subst hx
    cases hg : getObj h x with
    | none => rw [defineProp_none hg, hg]
    | some o => simp [getObj_defineProp_self hg, hg]
  · rw [getObj_defineProp_ne hx]

theorem findProp_setProp_self (ps : List (Key × Descr)) (k : Key) (d : Descr) :
    (setProp ps k d).find? (fun p => p.1 == k) = some (k, d) := by
  induction ps with
  | nil => simp [setProp, List.find?]
  | cons p ps ih =>
    by_cases hp : p.1 = k
    · simp [setProp, hp, List.find?]
    · have hb : (p.1 == k) = false := by simp [hp]
      simp only [setProp, hb, Bool.false_eq_true, if_false, List.find?, ih]

theorem findProp_setProp_ne (ps : List (Key × Descr)) {k k' : Key} (hne : k' ≠ k)
    (d : Descr) :
    (setProp ps k d).find? (fun p => p.1 == k') = ps.find? (fun p => p.1 == k') := by
  induction ps with
  | nil =>
    have hb : (k == k') = false := by simp [Ne.symm hne]
    simp [setProp, List.find?, hb]
  | cons p ps ih =>
    by_cases hp : p.1 = k
    · have hb : (k == k') = false := by simp [Ne.symm hne]
      have hb2 : (p.1 == k') = false := by simp [hp, Ne.symm hne]
      simp [setProp, hp, List.find?, hb, hb2]
    · have hb : (p.1 == k) = false := by simp [hp]
      simp only [setProp, hb, Bool.false_eq_true, if_false, List.find?]
      cases hpk : (p.1 == k') with
      | true => rfl
      | false => exact ih

theorem getOwnD_setProp_self (o : Obj) (k : Key) (d : Descr) :
    getOwnD { o with props := setProp o.props k d } k = some d := by
  unfold getOwnD
  simp [findProp_setProp_self]

theorem getOwnD_setProp_ne (o : Obj) {k k' : Key} (hne : k' ≠ k) (d : Descr) :
    getOwnD { o with props := setProp o.props k d } k' = getOwnD o k' := by
  unfold getOwnD
  rw [findProp_setProp_ne o.props hne d]

theorem ownDescr_defineProp_self {h : Heap} {r : Nat} {o : Obj}
    (hg : getObj h r = some o) (k : Key) (d : Descr) :
    ownDescr (defineProp h r k d) r k = some d := by
  unfold ownDescr
  rw [getObj_defineProp_self hg]
  simp [getOwnD_setProp_self]

theorem ownDescr_defineProp_ne_key {h : Heap} {r : Nat} {k k' : Key} (hne : k' ≠ k)
    (d : Descr) :
    ownDescr (defineProp h r k d) r k' = ownDescr h r k' := by
  unfold ownDescr
  cases hg : getObj h r with
  | none => rw [defineProp_none hg, hg]
  | some o =>
    rw [getObj_defineProp_self hg]
    simp [getOwnD_setProp_ne o hne]

theorem ownDescr_defineProp_ne_obj {h : Heap} {r x : Nat} (hx : x ≠ r)
    (k k' : Key) (d : Descr) :
    ownDescr (defineProp h r k d) x k' = ownDescr h x k' := by
  unfold ownDescr
  rw [getObj_defineProp_ne hx]

theorem ownDescr_tag {h : Heap} {t : Nat} (r : Nat) (k : Key) :
    ownDescr { h with nextTag := t } r k = ownDescr h r k := rfl

/-! ## dataOnly and ProtoDec preservation -/

theorem dataOnly_descr {h : Heap} (hd : dataOnly h = true) {r : Nat} {o : Obj}
    {k : Key} {d : Descr} (hg : getObj h r = some o) (hk : getOwnD o k = some d) :
    d.isData = true := by
  have ho : o ∈ h.objs := getObj_mem hg
  have hall := (List.all_eq_true.mp hd) o ho
  unfold getOwnD at hk
  cases hf : o.props.find? (fun p => p.1 == k) with
  | none => rw [hf] at hk; simp at hk
  | some p =>
    rw [hf] at hk
    simp only [Option.map_some', Option.some.injEq] at hk
    have hm := List.mem_of_find?_eq_some hf
    have := (List.all_eq_true.mp hall) p hm
    rw [← hk]
    exact this

theorem all_setProp {pred : Key × Descr → Bool} {ps : List (Key × Descr)}
    (hall : ps.all pred = true) {k : Key} {d : Descr} (hd : pred (k, d) = true) :
    (setProp ps k d).all pred = true := by
  induction ps with
  | nil => simp [setProp, hd]
  | cons p ps ih =>
    simp only [List.all_cons, Bool.and_eq_true] at hall
    by_cases hp : p.1 = k
    · simp [setProp, hp, hd, hall.2]
    · have hb : (p.1 == k) = false := by simp [hp]
      simp only [setProp, hb, Bool.false_eq_true, if_false, List.all_cons,
        Bool.and_eq_true]
      exact ⟨hall.1, ih hall.2⟩

theorem dataOnly_defineProp {h : Heap} (hd : dataOnly h = true) (r : Nat) (k : Key)
    {v : Val} {w e c : Bool} :
    dataOnly (defineProp h r k (Descr.data v w e c)) = true := by
  unfold defineProp
  cases hg : getObj h r with
  | none => exact hd
  | some o =>
    unfold dataOnly at hd ⊢
    rw [List.all_eq_true] at hd ⊢
    intro o' ho'
    rcases List.mem_or_eq_of_mem_set ho' with hmem | heq
    · exact hd o' hmem
    · subst heq
      exact all_setProp (hd o (getObj_mem hg)) rfl

theorem dataOnly_tag {h : Heap} {t : Nat} :
    dataOnly { h with nextTag := t } = dataOnly h := rfl

theorem protoDec_of_frame {h h' : Heap}
    (hproto : ∀ x, (getObj h' x).map Obj.proto = (getObj h x).map Obj.proto)
    (hdec : ProtoDec h) : ProtoDec h' := by
  intro r o p hro hp
  have := hproto r
  rw [hro] at this
  cases hg : getObj h r with
  | none => rw [hg] at this; simp at this
  | some o2 =>
    rw [hg] at this
    simp only [Option.map_some', Option.some.injEq] at this
    exact hdec r o2 p hg (by rw [← this, hp])

/-! ## Chain-lookup lemmas -/

/-- Every descriptor `getDescr` finds is an own descriptor of some heap
object. -/
theorem getDescr_mem {h : Heap} {k : Key} :
    ∀ {fuel r : Nat} {d : Descr}, getDescr h k fuel r = some d →
      ∃ r' o, getObj h r' = some o ∧ getOwnD o k = some d := by
  intro fuel
  induction fuel with
  | zero => intro r d hd; simp [getDescr] at hd
  | succ n ih =>
    intro r d hd
    unfold getDescr at hd
    cases hg : getObj h r with
    | none => simp [hg] at hd
    | some o =>
      simp only [hg] at hd
      cases ho : getOwnD o k with
      | some d2 =>
        simp only [ho, Option.some.injEq] at hd
        exact ⟨r, o, hg, by rw [ho, hd]⟩
      | none =>
        simp only [ho] at hd
        cases hp : o.proto with
        | none => simp [hp] at hd
        | some p => simp only [hp] at hd; exact ih hd

/-- Chain lookup below `s` is unaffected by heaps that agree outside `s`:
with decreasing prototype links, a walk starting strictly below `s` never
visits `s`. -/
theorem getDescr_congr_lt {h h' : Heap} {s : Nat}
    (hobj : ∀ x, x ≠ s → getObj h' x = getObj h x) (hdec : ProtoDec h) (k : Key) :
    ∀ fuel r, r < s → getDescr h' k fuel r = getDescr h k fuel r := by
  intro fuel
  induction fuel with
  | zero => intro r _; rfl
  | succ n ih =>
    intro r hr
    have hg : getObj h' r = getObj h r := hobj r (Nat.ne_of_lt hr)
    unfold getDescr
    rw [hg]
    cases hgo : getObj h r with
    | none => rfl
    | some o =>
      simp only [hgo]
      cases ho : getOwnD o k with
      | some d => rfl
      | none =>
        simp only [ho]
        cases hp : o.proto with
        | none => rfl
        | some p =>
          simp only [hp]
          have hps : p < r := hdec r o p hgo hp
          exact ih p (Nat.lt_trans hps hr)

/-- Chain lookup starting at `s` is unaffected by changes that keep `s`'s own
descriptor at the key and `s`'s prototype, and everything outside `s`. -/
theorem getDescr_congr_start {h h' : Heap} {s : Nat} {m : Key} {o o' : Obj}
    (hobj : ∀ x, x ≠ s → getObj h' x = getObj h x) (hdec : ProtoDec h)
    (hs : getObj h s = some o) (hs' : getObj h' s = some o')
    (hown : getOwnD o' m = getOwnD o m) (hproto : o'.proto = o.proto) :
    ∀ fuel, getDescr h' m fuel s = getDescr h m fuel s := by
  intro fuel
  cases fuel with
  | zero => rfl
  | succ n =>
    unfold getDescr
    rw [hs, hs']
    simp only [hown, hproto]
    cases ho : getOwnD o m with
    | some d => rfl
    | none =>
      simp only [ho]
      cases hp : o.proto with
      | none => rfl
      | some p =>
        simp only [hp]
        have hps : p < s := hdec s o p hs hp
        exact getDescr_congr_lt hobj hdec m n p hps

/-- Under `dataOnly` every read is pure and determined by the chain
descriptor. -/
theorem getValue_dataOnly {h : Heap} (hd : dataOnly h = true) (r : Nat) (k : Key) :
    getValue h r k =
      ((match getDescr h k h.objs.length r with
        | some (Descr.data v _ _ _) => v
        | _ => Val.undef), h) := by
  unfold getValue
  cases hg : getDescr h k h.objs.length r with
  | none => rfl
  | some d =>
    cases d with
    | data v w e c => rfl
    | accessor g e c =>
      obtain ⟨r', o, hro, hok⟩ := getDescr_mem hg
      have := dataOnly_descr hd hro hok
      simp [Descr.isData] at this

/-- A present own data property is returned by a read, purely. -/
theorem getValue_of_ownData {h : Heap} {s : Nat} {m : Key} {v : Val} {w e c : Bool}
    (ho : ownDescr h s m = some (Descr.data v w e c)) :
    getValue h s m = (v, h) := by
  unfold ownDescr at ho
  cases hg : getObj h s with
  | none => rw [hg] at ho; simp at ho
  | some o =>
    rw [hg] at ho
    simp only [Option.some_bind] at ho
    have hlt : s < h.objs.length := getObj_lt hg
    unfold getValue
    obtain ⟨n, hn⟩ : ∃ n, h.objs.length = n + 1 := ⟨h.objs.length - 1, by omega⟩
    rw [hn]
    unfold getDescr
    simp only [hg, ho]

/-- An own accessor holding a lazy getter for the same instance and key: a
read allocates the bind-wrapper, memoises it, and returns it. -/
theorem getValue_of_ownLazy {h : Heap} {s : Nat} {m : Key} {f : Fn} {e c : Bool}
    (ho : ownDescr h s m = some (Descr.accessor (Getter.lazyGet f s m) e c)) :
    getValue h s m =
      (Val.fn (Fn.bound h.nextTag f s),
       defineProp { h with nextTag := h.nextTag + 1 } s m
         (Descr.data (Val.fn (Fn.bound h.nextTag f s)) true false true)) := by
  unfold ownDescr at ho
  cases hg : getObj h s with
  | none => rw [hg] at ho; simp at ho
  | some o =>
    rw [hg] at ho
    simp only [Option.some_bind] at ho
    have hlt : s < h.objs.length := getObj_lt hg
    unfold getValue
    obtain ⟨n, hn⟩ : ∃ n, h.objs.length = n + 1 := ⟨h.objs.length - 1, by omega⟩
    rw [hn]
    unfold getDescr
    simp only [hg, ho]
    rfl

/-! ## Frame relation -/

/-- The heap `h'` differs from `h` at most in the own-property list of object
`s` (and in the allocation counter): same size, same objects elsewhere, same
prototype links everywhere. -/
def FrameRel (h h' : Heap) (s : Nat) : Prop :=
  h'.objs.length = h.objs.length ∧
  (∀ x, x ≠ s → getObj h' x = getObj h x) ∧
  (∀ x, (getObj h' x).map Obj.proto = (getObj h x).map Obj.proto)

theorem FrameRel.refl (h : Heap) (s : Nat) : FrameRel h h s :=
  ⟨rfl, fun _ _ => rfl, fun _ => rfl⟩

theorem FrameRel.trans {h1 h2 h3 : Heap} {s : Nat}
    (a : FrameRel h1 h2 s) (b : FrameRel h2 h3 s) : FrameRel h1 h3 s :=
  ⟨b.1.trans a.1,
   fun x hx => (b.2.1 x hx).trans (a.2.1 x hx),
   fun x => (b.2.2 x).trans (a.2.2 x)⟩

theorem FrameRel.ofDefine (h : Heap) (s : Nat) (k : Key) (d : Descr) :
    FrameRel h (defineProp h s k d) s :=
  ⟨length_defineProp h s k d,
   fun _ hx => getObj_defineProp_ne hx k d,
   fun x => proto_defineProp h s k d x⟩

theorem FrameRel.ofTag (h : Heap) (s t : Nat) :
    FrameRel h { h with nextTag := t } s :=
  ⟨rfl, fun _ _ => rfl, fun _ => rfl⟩

theorem FrameRel.ofTagDefine (h : Heap) (s t : Nat) (k : Key) (d : Descr) :
    FrameRel h (defineProp { h with nextTag := t } s k d) s :=
  (FrameRel.ofTag h s t).trans (FrameRel.ofDefine _ s k d)

theorem FrameRel.protoDec {h h' : Heap} {s : Nat} (fr : FrameRel h h' s)
    (hdec : ProtoDec h) : ProtoDec h' :=
  protoDec_of_frame fr.2.2 hdec

/-! ## Eager binding lemmas -/

theorem getDescr_start_some {h : Heap} {k : Key} {fuel s : Nat} {d : Descr}
    (hd : getDescr h k fuel s = some d) : ∃ o, getObj h s = some o := by
  cases fuel with
  | zero => simp [getDescr] at hd
  | succ n =>
    unfold getDescr at hd
    cases hg : getObj h s with
    | none => simp [hg] at hd
    | some o => exact ⟨o, rfl⟩

theorem bindEager_cons (h : Heap) (s : Nat) (m : Key) (rest : List Key) :
    bindEager h s (m :: rest) =
      bindEager
        (match (getValue h s m).1 with
         | Val.fn f =>
           defineProp { (getValue h s m).2 with nextTag := (getValue h s m).2.nextTag + 1 }
             s m
             (Descr.data (Val.fn (Fn.bound (getValue h s m).2.nextTag f s)) true false true)
         | _ => (getValue h s m).2) s rest := rfl

/-- Under `dataOnly`, eager binding only rewrites own properties of `s` at the
keys it is given; sizes, other objects, prototype links and the untouched keys
of `s` are preserved, and the heap stays accessor-free. -/
theorem bindEager_frame {s : Nat} :
    ∀ (l : List Key) (h : Heap), dataOnly h = true →
      dataOnly (bindEager h s l) = true ∧ FrameRel h (bindEager h s l) s ∧
      ∀ m, m ∉ l → ownDescr (bindEager h s l) s m = ownDescr h s m := by
  intro l
  induction l with
  | nil => intro h hd; exact ⟨hd, FrameRel.refl h s, fun _ _ => rfl⟩
  | cons m' rest ih =>
    intro h hd
    rw [bindEager_cons, getValue_dataOnly hd s m']
    cases hv : (match getDescr h m' h.objs.length s with
                | some (Descr.data v _ _ _) => v
                | _ => Val.undef) with
    | fn f =>
      simp only
      have hd2 : dataOnly (defineProp { h with nextTag := h.nextTag + 1 } s m'
          (Descr.data (Val.fn (Fn.bound h.nextTag f s)) true false true)) = true :=
        dataOnly_defineProp (h := { h with nextTag := h.nextTag + 1 }) hd s m'
      obtain ⟨hdo, hfr, hpres⟩ := ih _ hd2
      refine ⟨hdo, (FrameRel.ofTagDefine h s (h.nextTag + 1) m' _).trans hfr, ?_⟩
      intro m hm
      have hne : m ≠ m' := fun he => hm (he ▸ List.mem_cons_self m' rest)
      have hrest : m ∉ rest := fun hr => hm (List.mem_cons_of_mem m' hr)
      rw [hpres m hrest, ownDescr_defineProp_ne_key hne, ownDescr_tag]
    | undef =>
      simp only
      obtain ⟨hdo, hfr, hpres⟩ := ih h hd
      exact ⟨hdo, hfr, fun m hm => hpres m (fun hr => hm (List.mem_cons_of_mem m' hr))⟩
    | int n =>
      simp only
      obtain ⟨hdo, hfr, hpres⟩ := ih h hd
      exact ⟨hdo, hfr, fun m hm => hpres m (fun hr => hm (List.mem_cons_of_mem m' hr))⟩
    | str t =>
      simp only
      obtain ⟨hdo, hfr, hpres⟩ := ih h hd
      exact ⟨hdo, hfr, fun m hm => hpres m (fun hr => hm (List.mem_cons_of_mem m' hr))⟩
    | obj r =>
      simp only
      obtain ⟨hdo, hfr, hpres⟩ := ih h hd
      exact ⟨hdo, hfr, fun m hm => hpres m (fun hr => hm (List.mem_cons_of_mem m' hr))⟩

/-- The central eager-binding lemma: a retained name whose chain lookup at
binding time finds a callable data descriptor ends up as an own data property
of the instance holding a fresh bind-wrapper around that callable, with the
`{writable: true, enumerable: false, configurable: true}` attributes. -/
theorem bindEager_binds {s : Nat} :
    ∀ (l : List Key) (h : Heap), dataOnly h = true → ProtoDec h → l.Nodup →
      ∀ m ∈ l, ∀ {f : Fn} {w e c : Bool},
        getDescr h m h.objs.length s = some (Descr.data (Val.fn f) w e c) →
        ∃ tag, ownDescr (bindEager h s l) s m =
          some (Descr.data (Val.fn (Fn.bound tag f s)) true false true) := by
  intro l
  induction l with
  | nil => intro h _ _ _ m hm; exact absurd hm (List.not_mem_nil m)
  | cons m' rest ih =>
    intro h hd hdec hnd m hm f w e c hgd
    obtain ⟨o, ho⟩ := getDescr_start_some hgd
    rcases List.mem_cons.mp hm with heq | hmr
    · subst heq
      rw [bindEager_cons, getValue_dataOnly hd s m]
      rw [hgd]
      simp only
      have hd2 : dataOnly (defineProp { h with nextTag := h.nextTag + 1 } s m
          (Descr.data (Val.fn (Fn.bound h.nextTag f s)) true false true)) = true :=
        dataOnly_defineProp (h := { h with nextTag := h.nextTag + 1 }) hd s m
      obtain ⟨_, _, hpres⟩ := bindEager_frame rest _ hd2
      have hnin : m ∉ rest := (List.nodup_cons.mp hnd).1
      refine ⟨h.nextTag, ?_⟩
      rw [hpres m hnin]
      exact ownDescr_defineProp_self (h := { h with nextTag := h.nextTag + 1 }) ho m _
    · have hne : m ≠ m' := by
        intro he
        exact (List.nodup_cons.mp hnd).1 (he ▸ hmr)
      rw [bindEager_cons, getValue_dataOnly hd s m']
      cases hv : (match getDescr h m' h.objs.length s with
                  | some (Descr.data v _ _ _) => v
                  | _ => Val.undef) with
      | fn f2 =>
        simp only
        set h2 := defineProp { h with nextTag := h.nextTag + 1 } s m'
          (Descr.data (Val.fn (Fn.bound h.nextTag f2 s)) true false true) with hh2
        have hd2 : dataOnly h2 = true :=
          dataOnly_defineProp (h := { h with nextTag := h.nextTag + 1 }) hd s m'
        have hfr : FrameRel h h2 s := FrameRel.ofTagDefine h s (h.nextTag + 1) m' _
        have hdec2 : ProtoDec h2 := hfr.protoDec hdec
        have ho2 : getObj h2 s =
            some { o with props := setProp o.props m' (Descr.data (Val.fn (Fn.bound h.nextTag f2 s)) true false true) } :=
          getObj_defineProp_self (h := { h with nextTag := h.nextTag + 1 }) ho m' _
        have hgd2 : getDescr h2 m h2.objs.length s =
            some (Descr.data (Val.fn f) w e c) := by
          rw [hfr.1]
          rw [getDescr_congr_start hfr.2.1 hdec ho ho2
            (getOwnD_setProp_ne o hne _) rfl h.objs.length]
          exact hgd
        exact ih h2 hd2 hdec2 (List.nodup_cons.mp hnd).2 m hmr hgd2
      | undef =>
        simp only
        exact ih h hd hdec (List.nodup_cons.mp hnd).2 m hmr hgd
      | int n =>
        simp only
        exact ih h hd hdec (List.nodup_cons.mp hnd).2 m hmr hgd
      | str t =>
        simp only
        exact ih h hd hdec (List.nodup_cons.mp hnd).2 m hmr hgd
      | obj r =>
        simp only
        exact ih h hd hdec (List.nodup_cons.mp hnd).2 m hmr hgd

/-! ## Lazy binding lemmas -/

theorem bindLazy_cons (h : Heap) (s : Nat) (m : Key) (rest : List Key) :
    bindLazy h s (m :: rest) =
      bindLazy
        (match lazyLookup h s m with
         | some (Descr.data (Val.fn f) _ _ _) =>
           defineProp h s m (Descr.accessor (Getter.lazyGet f s m) false true)
         | _ => h) s rest := rfl

/-- One lazy step is either a skip or the installation of the accessor for a
callable resolved at binding time. -/
theorem bindLazy_step (h : Heap) (s : Nat) (m : Key) :
    (match lazyLookup h s m with
     | some (Descr.data (Val.fn f) _ _ _) =>
       defineProp h s m (Descr.accessor (Getter.lazyGet f s m) false true)
     | _ => h) = h ∨
    ∃ f w e c, lazyLookup h s m = some (Descr.data (Val.fn f) w e c) ∧
      (match lazyLookup h s m with
       | some (Descr.data (Val.fn f) _ _ _) =>
         defineProp h s m (Descr.accessor (Getter.lazyGet f s m) false true)
       | _ => h) =
        defineProp h s m (Descr.accessor (Getter.lazyGet f s m) false true) := by
  cases hl : lazyLookup h s m with
  | none => exact Or.inl rfl
  | some d =>
    cases d with
    | accessor g e c => exact Or.inl rfl
    | data v w e c =>
      cases v with
      | fn f => exact Or.inr ⟨f, w, e, c, rfl, rfl⟩
      | undef => exact Or.inl rfl
      | int n => exact Or.inl rfl
      | str t => exact Or.inl rfl
      | obj r => exact Or.inl rfl

/-- Lazy binding only rewrites own properties of `s` at the keys it is given. -/
theorem bindLazy_frame {s : Nat} :
    ∀ (l : List Key) (h : Heap),
      FrameRel h (bindLazy h s l) s ∧
      ∀ m, m ∉ l → ownDescr (bindLazy h s l) s m = ownDescr h s m := by
  intro l
  induction l with
  | nil => intro h; exact ⟨FrameRel.refl h s, fun _ _ => rfl⟩
  | cons m' rest ih =>
    intro h
    rw [bindLazy_cons]
    rcases bindLazy_step h s m' with he | ⟨f, w, e, c, _, he⟩ <;> rw [he]
    · obtain ⟨fr, pres⟩ := ih h
      exact ⟨fr, fun m hm => pres m (fun hr => hm (List.mem_cons_of_mem m' hr))⟩
    · obtain ⟨fr, pres⟩ :=
        ih (defineProp h s m' (Descr.accessor (Getter.lazyGet f s m') false true))
      refine ⟨(FrameRel.ofDefine h s m' _).trans fr, ?_⟩
      intro m hm
      have hne : m ≠ m' := fun heq => hm (heq ▸ List.mem_cons_self m' rest)
      rw [pres m (fun hr => hm (List.mem_cons_of_mem m' hr)),
        ownDescr_defineProp_ne_key hne]

theorem protoOf_congr {h h' : Heap} {x : Nat}
    (hm : (getObj h' x).map Obj.proto = (getObj h x).map Obj.proto) :
    protoOf h' x = protoOf h x := by
  unfold protoOf
  cases hg : getObj h x with
  | none =>
    rw [hg] at hm
    simp only [Option.map_none'] at hm
    rw [Option.map_eq_none'.mp hm]
  | some o =>
    rw [hg] at hm
    cases hg' : getObj h' x with
    | none => rw [hg'] at hm; simp at hm
    | some o' =>
      rw [hg'] at hm
      simp only [Option.map_some', Option.some.injEq] at hm
      simp [hm]

theorem protoOf_some_lt {h : Heap} {s p : Nat} (hdec : ProtoDec h)
    (hp : protoOf h s = some p) : p < s := by
  unfold protoOf at hp
  cases hg : getObj h s with
  | none => rw [hg] at hp; simp at hp
  | some o =>
    rw [hg] at hp
    simp only [Option.some_bind] at hp
    exact hdec s o p hg hp

theorem protoOf_some_obj {h : Heap} {s p : Nat} (hp : protoOf h s = some p) :
    ∃ o, getObj h s = some o ∧ o.proto = some p := by
  unfold protoOf at hp
  cases hg : getObj h s with
  | none => rw [hg] at hp; simp at hp
  | some o =>
    rw [hg] at hp
    simp only [Option.some_bind] at hp
    exact ⟨o, rfl, hp⟩

theorem lazyLookup_proto_none {h : Heap} {s : Nat} (m : Key)
    (hp : protoOf h s = none) : lazyLookup h s m = none := by
  unfold lazyLookup
  rw [hp]

theorem lazyLookup_proto_some {h : Heap} {s p : Nat} (m : Key)
    (hp : protoOf h s = some p) :
    lazyLookup h s m =
      match ownDescr h p m with
      | some d => some d
      | none => findDescriptorInChain h s m := by
  unfold lazyLookup
  rw [hp]

theorem findChain_proto_some {h : Heap} {s p : Nat} (k : Key)
    (hp : protoOf h s = some p) :
    findDescriptorInChain h s k = getDescr h k h.objs.length p := by
  unfold findDescriptorInChain
  rw [hp]

theorem lazyLookup_some_obj {h : Heap} {s : Nat} {m : Key} {d : Descr}
    (hl : lazyLookup h s m = some d) : ∃ o, getObj h s = some o := by
  cases hp : protoOf h s with
  | none => rw [lazyLookup_proto_none m hp] at hl; exact absurd hl (by simp)
  | some p =>
    obtain ⟨o, ho, _⟩ := protoOf_some_obj hp
    exact ⟨o, ho⟩

/-- The descriptor `bindLazy` resolves depends only on the prototype chain
below the instance (and the instance's prototype link), so heaps related by
`FrameRel` agree on it. -/
theorem lazyLookup_congr {h h' : Heap} {s : Nat} (fr : FrameRel h h' s)
    (hdec : ProtoDec h) (m : Key) :
    lazyLookup h' s m = lazyLookup h s m := by
  have hpc : protoOf h' s = protoOf h s := protoOf_congr (fr.2.2 s)
  cases hp : protoOf h s with
  | none => rw [lazyLookup_proto_none m (hpc.trans hp), lazyLookup_proto_none m hp]
  | some p =>
    have hps : p < s := protoOf_some_lt hdec hp
    rw [lazyLookup_proto_some m (hpc.trans hp), lazyLookup_proto_some m hp]
    have hop : ownDescr h' p m = ownDescr h p m := by
      unfold ownDescr
      rw [fr.2.1 p (Nat.ne_of_lt hps)]
    rw [hop]
    cases ownDescr h p m with
    | some d => rfl
    | none =>
      rw [findChain_proto_some m (hpc.trans hp), findChain_proto_some m hp, fr.1]
      exact getDescr_congr_lt fr.2.1 hdec m h.objs.length p hps

theorem bindLazy_installs {s : Nat} :
    ∀ (l : List Key) (h : Heap), ProtoDec h → l.Nodup →
      ∀ m ∈ l, ∀ {f : Fn} {w e c : Bool},
        lazyLookup h s m = some (Descr.data (Val.fn f) w e c) →
        ownDescr (bindLazy h s l) s m =
          some (Descr.accessor (Getter.lazyGet f s m) false true) := by
  intro l
  induction l with
  | nil => intro h _ _ m hm; exact absurd hm (List.not_mem_nil m)
  | cons m' rest ih =>
    intro h hdec hnd m hm f w e c hl
    obtain ⟨o, ho⟩ := lazyLookup_some_obj hl
    rcases List.mem_cons.mp hm with heq | hmr
    · subst heq
      rw [bindLazy_cons, hl]
      simp only
      obtain ⟨fr, pres⟩ :=
        bindLazy_frame rest (defineProp h s m (Descr.accessor (Getter.lazyGet f s m) false true))
      rw [pres m (List.nodup_cons.mp hnd).1]
      exact ownDescr_defineProp_self ho m _
    · have hne : m ≠ m' := by
        intro he
        exact (List.nodup_cons.mp hnd).1 (he ▸ hmr)
      rw [bindLazy_cons]
      rcases bindLazy_step h s m' with he | ⟨f2, w2, e2, c2, _, he⟩ <;> rw [he]
      · exact ih h hdec (List.nodup_cons.mp hnd).2 m hmr hl
      · set h2 := defineProp h s m' (Descr.accessor (Getter.lazyGet f2 s m') false true) with hh2
        have fr : FrameRel h h2 s := FrameRel.ofDefine h s m' _
        have hdec2 : ProtoDec h2 := fr.protoDec hdec
        have hl2 : lazyLookup h2 s m = some (Descr.data (Val.fn f) w e c) := by
          rw [lazyLookup_congr fr hdec m]; exact hl
        exact ih h2 hdec2 (List.nodup_cons.mp hnd).2 m hmr hl2

/-- A name whose binding-time resolution is absent or not callable is skipped
entirely: its own descriptor on the instance is untouched (in particular, no
accessor is installed). -/
theorem bindLazy_skips {s : Nat} :
    ∀ (l : List Key) (h : Heap), ProtoDec h →
      ∀ m, (∀ f w e c, lazyLookup h s m ≠ some (Descr.data (Val.fn f) w e c)) →
      ownDescr (bindLazy h s l) s m = ownDescr h s m := by
  intro l
  induction l with
  | nil => intro h _ m _; rfl
  | cons m' rest ih =>
    intro h hdec m hnl
    rw [bindLazy_cons]
    rcases bindLazy_step h s m' with he | ⟨f2, w2, e2, c2, hl2, he⟩ <;> rw [he]
    · exact ih h hdec m hnl
    · have hne : m ≠ m' := by
        intro heq
        exact hnl f2 w2 e2 c2 (heq ▸ hl2)
      set h2 := defineProp h s m' (Descr.accessor (Getter.lazyGet f2 s m') false true) with hh2
      have fr : FrameRel h h2 s := FrameRel.ofDefine h s m' _
      have hdec2 : ProtoDec h2 := fr.protoDec hdec
      have hnl2 : ∀ f w e c, lazyLookup h2 s m ≠ some (Descr.data (Val.fn f) w e c) := by
        intro f w e c
        rw [lazyLookup_congr fr hdec m]
        exact hnl f w e c
      rw [ih h2 hdec2 m hnl2, ownDescr_defineProp_ne_key hne]

/-! ## Discovery and filtering lemmas -/

theorem methodNamesWalk_congr {h h' : Heap} {s : Nat}
    (hobj : ∀ x, x ≠ s → getObj h' x = getObj h x) (hdec : ProtoDec h) :
    ∀ (fuel : Nat) (op : Option Nat), (∀ p, op = some p → p < s) →
      methodNamesWalk h' fuel op = methodNamesWalk h fuel op := by
  intro fuel
  induction fuel with
  | zero => intro op _; cases op <;> rfl
  | succ n ih =>
    intro op hop
    cases op with
    | none => rfl
    | some r =>
      have hr : r < s := hop r rfl
      show (match getObj h' r with
            | none => []
            | some o => levelMethodKeys o ++ methodNamesWalk h' n o.proto) =
           (match getObj h r with
            | none => []
            | some o => levelMethodKeys o ++ methodNamesWalk h n o.proto)
      rw [hobj r (Nat.ne_of_lt hr)]
      cases hg : getObj h r with
      | none => rfl
      | some o =>
        show levelMethodKeys o ++ methodNamesWalk h' n o.proto =
             levelMethodKeys o ++ methodNamesWalk h n o.proto
        rw [ih o.proto (fun p hp => Nat.lt_trans (hdec r o p hg hp) hr)]

/-- Discovery never reads the instance's own properties: heaps related by
`FrameRel` discover the same method names. -/
theorem getAllMethodNames_congr {h h' : Heap} {s : Nat} (fr : FrameRel h h' s)
    (hdec : ProtoDec h) :
    getAllMethodNames h' s = getAllMethodNames h s := by
  unfold getAllMethodNames
  have hproto := fr.2.2 s
  cases hg : getObj h s with
  | none =>
    rw [hg] at hproto
    simp only [Option.map_none'] at hproto
    rw [Option.map_eq_none'.mp hproto]
  | some o =>
    rw [hg] at hproto
    cases hg' : getObj h' s with
    | none => rw [hg'] at hproto; simp at hproto
    | some o' =>
      rw [hg'] at hproto
      simp only [Option.map_some', Option.some.injEq] at hproto
      show dedupKeys [] (methodNamesWalk h' h'.objs.length o'.proto) =
           dedupKeys [] (methodNamesWalk h h.objs.length o.proto)
      rw [hproto, fr.1,
        methodNamesWalk_congr fr.2.1 hdec h.objs.length o.proto
          (fun p hp => hdec s o p hg hp)]

theorem dedupKeys_not_mem_seen :
    ∀ (l seen : List Key) (k : Key), k ∈ dedupKeys seen l → k ∉ seen := by
  intro l
  induction l with
  | nil => intro seen k hk; simp [dedupKeys] at hk
  | cons a rest ih =>
    intro seen k hk hks
    unfold dedupKeys at hk
    by_cases ha : a ∈ seen
    · rw [if_pos ha] at hk
      exact ih seen k hk hks
    · rw [if_neg ha] at hk
      rcases List.mem_cons.mp hk with he | hm
      · subst he; exact ha hks
      · exact ih (a :: seen) k hm (List.mem_cons_of_mem a hks)

theorem dedupKeys_nodup : ∀ (l seen : List Key), (dedupKeys seen l).Nodup := by
  intro l
  induction l with
  | nil => intro seen; exact List.nodup_nil
  | cons a rest ih =>
    intro seen
    unfold dedupKeys
    by_cases ha : a ∈ seen
    · rw [if_pos ha]; exact ih seen
    · rw [if_neg ha]
      refine List.nodup_cons.mpr ⟨?_, ih (a :: seen)⟩
      intro hmem
      exact dedupKeys_not_mem_seen rest (a :: seen) a hmem (List.mem_cons_self a seen)

theorem getAllMethodNames_nodup (h : Heap) (r : Nat) :
    (getAllMethodNames h r).Nodup := by
  unfold getAllMethodNames
  exact dedupKeys_nodup _ []

theorem filterMethods_sublist (methods : List Key) (options : Options) :
    (filterMethods methods options).Sublist methods := by
  unfold filterMethods
  have h1 : ∀ (l : List Key) (oi : Option (List Key)),
      (match oi with
       | some inc => l.filter (fun m => inc.contains m)
       | none => l).Sublist l := by
    intro l oi
    cases oi with
    | some inc => exact List.filter_sublist l
    | none => exact List.Sublist.refl l
  have h2 : ∀ (l : List Key) (oe : Option (List Key)),
      (match oe with
       | some exc => l.filter (fun m => !(exc.contains m))
       | none => l).Sublist l := by
    intro l oe
    cases oe with
    | some exc => exact List.filter_sublist l
    | none => exact List.Sublist.refl l
  have h3 : ∀ (l : List Key) (op : Option (String → Bool)),
      (match op with
       | some p => l.filter (fun m =>
           match m with
           | Key.str s => p s
           | Key.sym _ => false)
       | none => l).Sublist l := by
    intro l op
    cases op with
    | some p => exact List.filter_sublist l
    | none => exact List.Sublist.refl l
  exact ((h3 _ options.pattern).trans
    ((h2 _ options.excl).trans
      ((h1 _ options.incl).trans (List.filter_sublist methods))))

theorem filterMethods_nodup {methods : List Key} (hn : methods.Nodup)
    (options : Options) : (filterMethods methods options).Nodup :=
  hn.sublist (filterMethods_sublist methods options)

/-- A name in the `exclude` list never survives filtering. -/
theorem filterMethods_not_mem_excl {methods : List Key} {options : Options}
    {exc : List Key} (he : options.excl = some exc) {m : Key} (hm : m ∈ exc) :
    m ∉ filterMethods methods options := by
  intro hmem
  simp only [filterMethods, he] at hmem
  cases hpat : options.pattern with
  | some p =>
    rw [hpat] at hmem
    have h1 := (List.mem_filter.mp hmem).1
    have h2 := (List.mem_filter.mp h1).2
    simp [hm] at h2
  | none =>
    rw [hpat] at hmem
    have h2 := (List.mem_filter.mp hmem).2
    simp [hm] at h2

/-! ## autoBind-level lemmas -/

def isLazy : Option Options → Bool
  | some o => o.lazy
  | none => false

theorem autoBind_eager {h : Heap} {s : Nat} {opts : Option Options}
    (hl : isLazy opts = false) :
    (autoBind h s opts).1 =
      bindEager h s (filterMethods (getAllMethodNames h s) (opts.getD {})) := by
  cases opts with
  | none => rfl
  | some o =>
    have : o.lazy = false := hl
    simp [autoBind, this]

theorem autoBind_lazy {h : Heap} {s : Nat} {opts : Option Options}
    (hl : isLazy opts = true) :
    (autoBind h s opts).1 =
      bindLazy h s (filterMethods (getAllMethodNames h s) (opts.getD {})) := by
  cases opts with
  | none => exact absurd hl (by simp [isLazy])
  | some o =>
    have : o.lazy = true := hl
    simp [autoBind, this]

theorem autoBind_snd (h : Heap) (s : Nat) (opts : Option Options) :
    (autoBind h s opts).2 = s := rfl

/-- `autoBind` (either mode) relates the input and output heaps by the frame
relation on the instance: same size, same objects elsewhere, same prototype
links. -/
theorem autoBind_frameRel {h : Heap} {s : Nat} {opts : Option Options}
    (hd : dataOnly h = true) : FrameRel h (autoBind h s opts).1 s := by
  cases hlz : isLazy opts with
  | false =>
    rw [autoBind_eager hlz]
    exact (bindEager_frame _ h hd).2.1
  | true =>
    rw [autoBind_lazy hlz]
    exact (bindLazy_frame _ h).1

/-! ## Spec-side filter pipeline (for the refinement claim C6) -/

/-- Stage 1 stated from the spec's words (§4.2 step 1): drop string-keyed
names in the fixed built-in-root exclusion set; symbolic keys pass this stage
untouched. -/
def specFilterStage1 (methods : List Key) : List Key :=
  methods.filter (fun m =>
    match m with
    | Key.sym _ => true
    | Key.str s => !(BUILTIN_OBJECT_METHODS.contains s))

/-- Stage 2 stated from the spec's words (§4.2 step 2): if `include` is given,
keep only names present in it (set membership). -/
def specFilterStage2 (incl : Option (List Key)) (methods : List Key) : List Key :=
  match incl with
  | some inc => methods.filter (fun m => inc.contains m)
  | none => methods

/-- Stage 3 stated from the spec's words (§4.2 step 3): if `exclude` is given,
drop names present in it. -/
def specFilterStage3 (excl : Option (List Key)) (methods : List Key) : List Key :=
  match excl with
  | some exc => methods.filter (fun m => !(exc.contains m))
  | none => methods

/-- Stage 4 stated from the spec's words (§4.2 step 4): if `pattern` is given,
drop symbolic names entirely and keep only string names matching it. -/
def specFilterStage4 (pattern : Option (String → Bool)) (methods : List Key) :
    List Key :=
  match pattern with
  | some p => methods.filter (fun m =>
      match m with
      | Key.str s => p s
      | Key.sym _ => false)
  | none => methods

/-! ## Demonstration values used by the witnesses -/

/-- A two-object heap: object 0 is a prototype carrying one method `m`
(original function 0); object 1 is an instance inheriting from it. -/
def demoHeap : Heap :=
  ⟨[⟨none, [(Key.str "m", Descr.data (Val.fn (Fn.orig 0)) true false true)]⟩,
    ⟨some 0, []⟩], 0⟩

/-- A demonstration method semantics: method 0 returns its receiver, every
other id throws. -/
def demoSem : Nat → Val → List Val → Except String Val :=
  fun id this _ => if id = 0 then Except.ok this else Except.error "no such method"

/-! ## The claims -/

/-- C6: for every discovered method set and configuration, `filterMethods`
applies exactly the four-stage pipeline — built-in-root exclusion (symbols
exempt), then `include`, then `exclude`, then `pattern` (dropping symbols) —
each stage operating on the previous stage's output, and no stage
reintroduces a removed name (every stage's output is a sublist of its
input). -/
theorem filterMethods_pipeline (methods : List Key) (options : Options) :
    filterMethods methods options =
      specFilterStage4 options.pattern
        (specFilterStage3 options.excl
          (specFilterStage2 options.incl (specFilterStage1 methods))) ∧
    (specFilterStage1 methods).Sublist methods ∧
    (∀ l, (specFilterStage2 options.incl l).Sublist l) ∧
    (∀ l, (specFilterStage3 options.excl l).Sublist l) ∧
    (∀ l, (specFilterStage4 options.pattern l).Sublist l) := by
  refine ⟨rfl, List.filter_sublist methods, ?_, ?_, ?_⟩
  · intro l
    cases options.incl with
    | some inc => exact List.filter_sublist l
    | none => exact List.Sublist.refl l
  · intro l
    cases options.excl with
    | some exc => exact List.filter_sublist l
    | none => exact List.Sublist.refl l
  · intro l
    cases options.pattern with
    | some p => exact List.filter_sublist l
    | none => exact List.Sublist.refl l

/-- Whether an optional descriptor is a data descriptor with callable value
(the condition the `bound` decorator requires). -/
def isCallableDescr : Option Descr → Bool
  | some (Descr.data (Val.fn _) _ _ _) => true
  | _ => false

theorem filterMethods_nil (options : Options) : filterMethods [] options = [] := by
  unfold filterMethods
  cases options.incl <;> cases options.excl <;> cases options.pattern <;> rfl

/-- C8: the `bound` decorator signals the invalid-argument `TypeError` exactly
when the descriptor is absent or its value is not callable; on a callable
descriptor it returns the replacement accessor descriptor without signalling.
Every other operation is total: binding an object with no qualifying methods
is a no-op that returns the very same heap and instance. -/
theorem bound_error_iff :
    (∀ (t : Nat) (k : Key) (d : Option Descr),
      (bound t k d = Except.error "@bound can only be applied to methods" ↔
        isCallableDescr d = false) ∧
      (∀ f w e c, d = some (Descr.data (Val.fn f) w e c) →
        bound t k d = Except.ok (Descr.accessor (Getter.boundGet f t k) false true))) ∧
    (∀ (h : Heap) (s : Nat) (opts : Option Options),
      getAllMethodNames h s = [] → autoBind h s opts = (h, s)) := by
  constructor
  · intro t k d
    constructor
    · cases d with
      | none => simp [bound, isCallableDescr]
      | some dd =>
        cases dd with
        | accessor g e c => simp [bound, isCallableDescr]
        | data v w e c =>
          cases v with
          | fn f => simp [bound, isCallableDescr]
          | undef => simp [bound, isCallableDescr]
          | int n => simp [bound, isCallableDescr]
          | str t2 => simp [bound, isCallableDescr]
          | obj r => simp [bound, isCallableDescr]
    · intro f w e c hd
      subst hd
      rfl
  · intro h s opts hnone
    unfold autoBind
    rw [hnone, filterMethods_nil]
    cases opts with
    | none => rfl
    | some o =>
      by_cases hl : o.lazy
      · simp [hl]; rfl
      · simp [hl]; rfl

/-- Witness for C8 at concrete inputs: a missing descriptor throws, a
non-callable one throws, a callable one succeeds, and binding an instance
whose chain has no methods returns heap and instance unchanged. -/
theorem bound_error_iff_witness :
    (bound 0 (Key.str "x") none = Except.error "@bound can only be applied to methods") ∧
    (bound 0 (Key.str "x") (some (Descr.data (Val.int 5) true false true)) =
      Except.error "@bound can only be applied to methods") ∧
    (bound 0 (Key.str "x") (some (Descr.data (Val.fn (Fn.orig 3)) true false true)) =
      Except.ok (Descr.accessor (Getter.boundGet (Fn.orig 3) 0 (Key.str "x")) false true)) ∧
    (autoBind ⟨[⟨none, []⟩, ⟨some 0, []⟩], 0⟩ 1 none = (⟨[⟨none, []⟩, ⟨some 0, []⟩], 0⟩, 1)) := by
  refine ⟨?_, ?_, ?_, ?_⟩
  · exact ((bound_error_iff.1 0 (Key.str "x") none).1.mpr (by decide))
  · exact ((bound_error_iff.1 0 (Key.str "x")
      (some (Descr.data (Val.int 5) true false true))).1.mpr (by decide))
  · exact ((bound_error_iff.1 0 (Key.str "x")
      (some (Descr.data (Val.fn (Fn.orig 3)) true false true))).2 (Fn.orig 3)
        true false true rfl)
  · exact bound_error_iff.2 ⟨[⟨none, []⟩, ⟨some 0, []⟩], 0⟩ 1 none (by decide)

/-- C2: `autoBind` (eager or lazy) mutates only the instance's own-property
set: it returns the very same instance reference, leaves every other object
of the heap untouched (so the ancestor chain and the original methods on it
are unchanged), preserves the heap size, and never changes any prototype
link — including the instance's own. -/
theorem autoBind_frame_effect (h : Heap) (s : Nat) (opts : Option Options)
    (hd : dataOnly h = true) :
    (autoBind h s opts).2 = s ∧
    (∀ x, x ≠ s → getObj (autoBind h s opts).1 x = getObj h x) ∧
    ((autoBind h s opts).1.objs.length = h.objs.length) ∧
    (∀ x, (getObj (autoBind h s opts).1 x).map Obj.proto =
      (getObj h x).map Obj.proto) := by
  have fr := @autoBind_frameRel h s opts hd
  exact ⟨rfl, fr.2.1, fr.1, fr.2.2⟩

/-- Witness for C2: on the demonstration heap, eager binding leaves the
prototype object untouched and returns the instance. -/
theorem autoBind_frame_effect_witness :
    (autoBind demoHeap 1 none).2 = 1 ∧
    getObj (autoBind demoHeap 1 none).1 0 = getObj demoHeap 0 := by
  have t := autoBind_frame_effect demoHeap 1 none (by decide)
  exact ⟨t.1, t.2.1 0 (by decide)⟩

/-- C7: the lifecycle-aware variant never creates a bound own property at any
name of the fixed lifecycle list, whatever the caller's options (including an
explicit `include` of such a name): the instance's own descriptor at every
lifecycle name is exactly what it was before the call, and the call returns
the same instance. -/
theorem autoBindReact_never_binds (h : Heap) (s : Nat) (opts : Options)
    (name : String) (hd : dataOnly h = true)
    (hn : name ∈ REACT_LIFECYCLE_METHODS) :
    ownDescr (autoBindReact h s opts).1 s (Key.str name) =
      ownDescr h s (Key.str name) ∧
    (autoBindReact h s opts).2 = s := by
  refine ⟨?_, rfl⟩
  have hmem : Key.str name ∈
      opts.excl.getD [] ++ REACT_LIFECYCLE_METHODS.map Key.str :=
    List.mem_append.mpr (Or.inr (List.mem_map_of_mem Key.str hn))
  have hnotin : Key.str name ∉
      filterMethods (getAllMethodNames h s)
        { opts with excl := some (opts.excl.getD [] ++ REACT_LIFECYCLE_METHODS.map Key.str) } :=
    filterMethods_not_mem_excl rfl hmem
  show ownDescr (autoBind h s (some
    { opts with excl := some (opts.excl.getD [] ++ REACT_LIFECYCLE_METHODS.map Key.str) })).1
    s (Key.str name) = ownDescr h s (Key.str name)
  cases hlz : opts.lazy with
  | false =>
    rw [autoBind_eager (by simp [isLazy, hlz])]
    exact (bindEager_frame _ h hd).2.2 (Key.str name) hnotin
  | true =>
    rw [autoBind_lazy (by simp [isLazy, hlz])]
    exact (bindLazy_frame _ h).2 (Key.str name) hnotin

/-- Witness for C7: a component instance whose prototype declares `render`,
bound with an options structure that explicitly includes `render`, still gets
no own `render` property. -/
theorem autoBindReact_never_binds_witness :
    ownDescr (autoBindReact
      ⟨[⟨none, [(Key.str "render", Descr.data (Val.fn (Fn.orig 0)) true false true)]⟩,
        ⟨some 0, []⟩], 0⟩ 1 { incl := some [Key.str "render"] }).1 1 (Key.str "render") =
      ownDescr ⟨[⟨none, [(Key.str "render", Descr.data (Val.fn (Fn.orig 0)) true false true)]⟩,
        ⟨some 0, []⟩], 0⟩ 1 (Key.str "render") := by
  exact (autoBindReact_never_binds
    ⟨[⟨none, [(Key.str "render", Descr.data (Val.fn (Fn.orig 0)) true false true)]⟩,
      ⟨some 0, []⟩], 0⟩ 1 { incl := some [Key.str "render"] } "render"
    (by decide) (by decide)).1

/-- A heap refuting C3: object 0 (deep prototype) declares method `m`
(original function 0); object 1 (immediate prototype) shadows `m` with a
non-callable data property `5`; object 2 is the instance.  Discovery still
retains `m` (it finds the callable on object 0), but `bindLazy`'s resolution
finds the non-callable shadow first. -/
def c3Heap : Heap :=
  ⟨[⟨none, [(Key.str "m", Descr.data (Val.fn (Fn.orig 0)) true false true)]⟩,
    ⟨some 0, [(Key.str "m", Descr.data (Val.int 5) true false true)]⟩,
    ⟨some 1, []⟩], 0⟩

/-- C3 counterexample: on `c3Heap`, the name `m` passes filtering in lazy
mode, yet after lazy binding the instance has *no* own property at `m` at all
— no accessor was installed; the whole heap is unchanged.  The claim's
"accessor property is nonetheless installed before the no-callable check
fails" is false: in the code the `continue` guard runs before
`Object.defineProperty`. -/
theorem lazy_no_callable_counterexample :
    Key.str "m" ∈ filterMethods (getAllMethodNames c3Heap 2) { lazy := true } ∧
    ownDescr (autoBind c3Heap 2 (some { lazy := true })).1 2 (Key.str "m") = none ∧
    (autoBind c3Heap 2 (some { lazy := true })).1 = c3Heap := by
  refine ⟨by decide, by decide, by decide⟩

/-- C3 as amended: in lazy mode, a retained name whose binding-time
resolution (immediate-prototype descriptor, else first chain descriptor) is
absent or not callable is skipped entirely — no own property, accessor or
otherwise, is created at that name on the instance. -/
theorem lazy_no_callable_skips (h : Heap) (s : Nat) (opts : Option Options)
    (m : Key) (hdec : ProtoDec h) (hlz : isLazy opts = true)
    (hnc : ∀ f w e c, lazyLookup h s m ≠ some (Descr.data (Val.fn f) w e c)) :
    ownDescr (autoBind h s opts).1 s m = ownDescr h s m := by
  rw [autoBind_lazy hlz]
  exact bindLazy_skips _ h hdec m hnc

/-- Witness for the amended C3 on `c3Heap`: the instance's own `m` stays
absent. -/
theorem lazy_no_callable_skips_witness :
    ownDescr (autoBind c3Heap 2 (some { lazy := true })).1 2 (Key.str "m") =
      ownDescr c3Heap 2 (Key.str "m") := by
  refine lazy_no_callable_skips c3Heap 2 (some { lazy := true }) (Key.str "m")
    (protoDecB_iff _ (by decide)) (by decide) ?_
  intro f w e c hco
  rw [show lazyLookup c3Heap 2 (Key.str "m") =
    some (Descr.data (Val.int 5) true false true) from rfl] at hco
  simp at hco

/-- A heap refuting C4: object 0 is the prototype with method `m` (original
function 0), object 1 the instance. -/
def c4Heap : Heap :=
  ⟨[⟨none, [(Key.str "m", Descr.data (Val.fn (Fn.orig 0)) true false true)]⟩,
    ⟨some 0, []⟩], 0⟩

/-- The heap after lazily binding the instance of `c4Heap` and then replacing
the prototype's `m` with a different callable (original function 7) before any
read. -/
def c4Replaced : Heap :=
  defineProp (autoBind c4Heap 1 (some { lazy := true })).1 0 (Key.str "m")
    (Descr.data (Val.fn (Fn.orig 7)) true false true)

/-- C4 counterexample: after lazy binding, the prototype's `m` is replaced by
original function 7; the first read nonetheless returns a wrapper around the
callable captured at *binding* time (original function 0), not the
replacement — invoking it runs method 0.  So the original callable is not
located at first-read time. -/
theorem lazy_locates_at_bind_counterexample :
    getDescr c4Replaced (Key.str "m") c4Replaced.objs.length 0 =
      some (Descr.data (Val.fn (Fn.orig 7)) true false true) ∧
    (getValue c4Replaced 1 (Key.str "m")).1 = Val.fn (Fn.bound 0 (Fn.orig 0) 1) ∧
    (getValue c4Replaced 1 (Key.str "m")).1 ≠ Val.fn (Fn.bound 0 (Fn.orig 7) 1) ∧
    call demoSem (Fn.bound 0 (Fn.orig 0) 1) Val.undef [] = Except.ok (Val.obj 1) := by
  refine ⟨by decide, by decide, by decide, by rfl⟩

/-- C4 as amended: the original callable is located and captured at binding
time (own descriptor of the immediate ancestor first, else the first
descriptor found walking further ancestors); any later heap mutation that
leaves the installed accessor in place — in particular replacing the
ancestor-chain method before the first read — does not change what the first
read yields: a fresh wrapper around the callable captured at binding time. -/
theorem lazy_captures_at_bind_time (h h2 : Heap) (s : Nat) (opts : Option Options)
    (m : Key) (f : Fn) (w e c : Bool)
    (hdec : ProtoDec h) (hlz : isLazy opts = true)
    (hm : m ∈ filterMethods (getAllMethodNames h s) (opts.getD {}))
    (hl : lazyLookup h s m = some (Descr.data (Val.fn f) w e c))
    (hpres : ownDescr h2 s m = ownDescr (autoBind h s opts).1 s m) :
    (getValue h2 s m).1 = Val.fn (Fn.bound h2.nextTag f s) := by
  rw [autoBind_lazy hlz] at hpres
  rw [bindLazy_installs _ h hdec
    (filterMethods_nodup (getAllMethodNames_nodup h s) _) m hm hl] at hpres
  exact congrArg Prod.fst (getValue_of_ownLazy hpres)

/-- Witness for the amended C4 on the `c4Replaced` scenario: the first read
wraps original function 0 captured at binding time. -/
theorem lazy_captures_at_bind_time_witness :
    (getValue c4Replaced 1 (Key.str "m")).1 =
      Val.fn (Fn.bound c4Replaced.nextTag (Fn.orig 0) 1) := by
  exact lazy_captures_at_bind_time c4Heap c4Replaced 1 (some { lazy := true })
    (Key.str "m") (Fn.orig 0) true false true
    (protoDecB_iff _ (by decide)) (by decide) (by decide) (by decide) (by decide)

/-- C5: in lazy mode, for a retained method name resolved to a callable at
binding time, the first read of the name allocates the receiver-fixed
wrapper, returns it, and replaces the accessor in place by a plain own data
property holding it with `{writable: true, enumerable: false, configurable:
true}`; the second read returns exactly the same wrapper value (same
allocation tag, i.e. the identical reference) and leaves the heap untouched,
so every subsequent read is identical. -/
theorem lazy_first_read_memoizes (h : Heap) (s : Nat) (opts : Option Options)
    (m : Key) (f : Fn) (w e c : Bool)
    (hdec : ProtoDec h) (hlz : isLazy opts = true)
    (hm : m ∈ filterMethods (getAllMethodNames h s) (opts.getD {}))
    (hl : lazyLookup h s m = some (Descr.data (Val.fn f) w e c)) :
    (getValue (autoBind h s opts).1 s m).1 =
      Val.fn (Fn.bound (autoBind h s opts).1.nextTag f s) ∧
    ownDescr (getValue (autoBind h s opts).1 s m).2 s m =
      some (Descr.data (getValue (autoBind h s opts).1 s m).1 true false true) ∧
    getValue (getValue (autoBind h s opts).1 s m).2 s m =
      ((getValue (autoBind h s opts).1 s m).1,
       (getValue (autoBind h s opts).1 s m).2) := by
  rw [autoBind_lazy hlz]
  have hacc := bindLazy_installs _ h hdec
    (filterMethods_nodup (getAllMethodNames_nodup h s) _) m hm hl
  set h1 := bindLazy h s (filterMethods (getAllMethodNames h s) (opts.getD {}))
    with hh1
  obtain ⟨o1, ho1⟩ : ∃ o, getObj h1 s = some o := by
    unfold ownDescr at hacc
    cases hg : getObj h1 s with
    | none => rw [hg] at hacc; simp at hacc
    | some o => exact ⟨o, rfl⟩
  have hread := getValue_of_ownLazy hacc
  rw [hread]
  have hown2 : ownDescr (defineProp { h1 with nextTag := h1.nextTag + 1 } s m
      (Descr.data (Val.fn (Fn.bound h1.nextTag f s)) true false true)) s m =
      some (Descr.data (Val.fn (Fn.bound h1.nextTag f s)) true false true) :=
    ownDescr_defineProp_self (h := { h1 with nextTag := h1.nextTag + 1 }) ho1 m _
  exact ⟨rfl, hown2, getValue_of_ownData hown2⟩

/-- Witness for C5 on `c4Heap`: first read returns wrapper with tag 0, the
accessor is replaced by the data property, and the second read returns the
identical wrapper from the identical heap. -/
theorem lazy_first_read_memoizes_witness :
    (getValue (autoBind c4Heap 1 (some { lazy := true })).1 1 (Key.str "m")).1 =
      Val.fn (Fn.bound (autoBind c4Heap 1 (some { lazy := true })).1.nextTag
        (Fn.orig 0) 1) ∧
    getValue (getValue (autoBind c4Heap 1 (some { lazy := true })).1 1 (Key.str "m")).2
        1 (Key.str "m") =
      ((getValue (autoBind c4Heap 1 (some { lazy := true })).1 1 (Key.str "m")).1,
       (getValue (autoBind c4Heap 1 (some { lazy := true })).1 1 (Key.str "m")).2) := by
  have t := lazy_first_read_memoizes c4Heap 1 (some { lazy := true }) (Key.str "m")
    (Fn.orig 0) true false true (protoDecB_iff _ (by decide)) (by decide)
    (by decide) (by decide)
  exact ⟨t.1, t.2.2⟩

theorem getDescr_of_own {h : Heap} {s : Nat} {m : Key} {d : Descr}
    (ho : ownDescr h s m = some d) {fuel : Nat} (hf : 0 < fuel) :
    getDescr h m fuel s = some d := by
  unfold ownDescr at ho
  cases hg : getObj h s with
  | none => rw [hg] at ho; simp at ho
  | some o =>
    rw [hg] at ho
    simp only [Option.some_bind] at ho
    cases fuel with
    | zero => omega
    | succ n =>
      unfold getDescr
      simp only [hg, ho]

/-- C1: for every instance and every retained method name whose chain lookup
at binding time finds a callable, after eager binding completes, reading that
name from the instance yields a bind-wrapper such that invoking it through
any receiver with any arguments executes the original callable with the
instance fixed as receiver, forwarding the arguments unchanged and returning
its result — success or thrown failure — unchanged. -/
theorem eager_binding_detaches (sem : Nat → Val → List Val → Except String Val)
    (h : Heap) (s : Nat) (opts : Option Options) (m : Key) (f : Fn) (w e c : Bool)
    (hd : dataOnly h = true) (hdec : ProtoDec h) (hlz : isLazy opts = false)
    (hm : m ∈ filterMethods (getAllMethodNames h s) (opts.getD {}))
    (hgd : getDescr h m h.objs.length s = some (Descr.data (Val.fn f) w e c)) :
    ∃ tag,
      getValue (autoBind h s opts).1 s m =
        (Val.fn (Fn.bound tag f s), (autoBind h s opts).1) ∧
      (∀ recv args, call sem (Fn.bound tag f s) recv args =
        call sem f (Val.obj s) args) ∧
      (∀ id recv args, f = Fn.orig id →
        call sem (Fn.bound tag f s) recv args = sem id (Val.obj s) args) := by
  rw [autoBind_eager hlz]
  obtain ⟨tag, hown⟩ := bindEager_binds _ h hd hdec
    (filterMethods_nodup (getAllMethodNames_nodup h s) _) m hm hgd
  refine ⟨tag, getValue_of_ownData hown, fun recv args => rfl, ?_⟩
  intro id recv args hf
  subst hf
  rfl

/-- Witness for C1 on the demonstration heap: the detached read of `m` after
eager binding, invoked through a foreign receiver, returns what the original
method returns on the instance (here: the instance itself). -/
theorem eager_binding_detaches_witness :
    (match (getValue (autoBind demoHeap 1 none).1 1 (Key.str "m")).1 with
      | Val.fn g => call demoSem g (Val.obj 9) [Val.int 3]
      | _ => Except.error "not callable") = demoSem 0 (Val.obj 1) [Val.int 3] := by
  obtain ⟨tag, h1, h2, _⟩ := eager_binding_detaches demoSem demoHeap 1 none
    (Key.str "m") (Fn.orig 0) true false true
    (by decide) (protoDecB_iff _ (by decide)) (by decide) (by decide) (by decide)
  rw [h1]
  exact h2 (Val.obj 9) [Val.int 3]

/-- C10: eager binding is observationally idempotent: applying eager
`autoBind` a second time with the same options rewraps the already-bound
wrapper (the new own value is a bind-wrapper around the previous wrapper,
with the same fixed receiver), and invoking it through any receiver gives
exactly the result of the singly-bound method, namely the original callable
invoked with the instance as receiver. -/
theorem eager_rebinding_idempotent (sem : Nat → Val → List Val → Except String Val)
    (h : Heap) (s : Nat) (opts : Option Options) (m : Key) (f : Fn) (w e c : Bool)
    (hd : dataOnly h = true) (hdec : ProtoDec h) (hlz : isLazy opts = false)
    (hm : m ∈ filterMethods (getAllMethodNames h s) (opts.getD {}))
    (hgd : getDescr h m h.objs.length s = some (Descr.data (Val.fn f) w e c)) :
    ∃ g1 g2,
      getValue (autoBind h s opts).1 s m = (Val.fn g1, (autoBind h s opts).1) ∧
      getValue (autoBind (autoBind h s opts).1 s opts).1 s m =
        (Val.fn g2, (autoBind (autoBind h s opts).1 s opts).1) ∧
      (∃ tag2, g2 = Fn.bound tag2 g1 s) ∧
      (∀ recv args, call sem g2 recv args = call sem g1 recv args) ∧
      (∀ recv args, call sem g2 recv args = call sem f (Val.obj s) args) := by
  have hnd := filterMethods_nodup (getAllMethodNames_nodup h s) (opts.getD {})
  obtain ⟨t1, hown1⟩ := bindEager_binds _ h hd hdec hnd m hm hgd
  have e1 : (autoBind h s opts).1 =
      bindEager h s (filterMethods (getAllMethodNames h s) (opts.getD {})) :=
    autoBind_eager hlz
  have hfr1 : FrameRel h
      (bindEager h s (filterMethods (getAllMethodNames h s) (opts.getD {}))) s :=
    (bindEager_frame _ h hd).2.1
  have hd1 : dataOnly
      (bindEager h s (filterMethods (getAllMethodNames h s) (opts.getD {}))) = true :=
    (bindEager_frame _ h hd).1
  have hdec1 : ProtoDec
      (bindEager h s (filterMethods (getAllMethodNames h s) (opts.getD {}))) :=
    hfr1.protoDec hdec
  have hnames : getAllMethodNames
      (bindEager h s (filterMethods (getAllMethodNames h s) (opts.getD {}))) s =
      getAllMethodNames h s :=
    getAllMethodNames_congr hfr1 hdec
  have hm1 : m ∈ filterMethods (getAllMethodNames
      (bindEager h s (filterMethods (getAllMethodNames h s) (opts.getD {}))) s)
      (opts.getD {}) := by
    rw [hnames]; exact hm
  have hlt1 : 0 < (bindEager h s
      (filterMethods (getAllMethodNames h s) (opts.getD {}))).objs.length := by
    have hsome : ownDescr (bindEager h s
        (filterMethods (getAllMethodNames h s) (opts.getD {}))) s m ≠ none := by
      rw [hown1]; simp
    unfold ownDescr at hsome
    cases hg : getObj (bindEager h s
        (filterMethods (getAllMethodNames h s) (opts.getD {}))) s with
    | none => rw [hg] at hsome; simp at hsome
    | some o => exact Nat.lt_of_le_of_lt (Nat.zero_le s) (getObj_lt hg)
  have hgd1 : getDescr (bindEager h s
      (filterMethods (getAllMethodNames h s) (opts.getD {}))) m
      (bindEager h s (filterMethods (getAllMethodNames h s) (opts.getD {}))).objs.length
      s = some (Descr.data (Val.fn (Fn.bound t1 f s)) true false true) :=
    getDescr_of_own hown1 hlt1
  have hnd1 := filterMethods_nodup (getAllMethodNames_nodup
    (bindEager h s (filterMethods (getAllMethodNames h s) (opts.getD {}))) s)
    (opts.getD {})
  obtain ⟨t2, hown2⟩ := bindEager_binds _ _ hd1 hdec1 hnd1 m hm1 hgd1
  have e2 : (autoBind (bindEager h s
      (filterMethods (getAllMethodNames h s) (opts.getD {}))) s opts).1 =
      bindEager (bindEager h s (filterMethods (getAllMethodNames h s) (opts.getD {}))) s
        (filterMethods (getAllMethodNames (bindEager h s
          (filterMethods (getAllMethodNames h s) (opts.getD {}))) s) (opts.getD {})) :=
    autoBind_eager hlz
  refine ⟨Fn.bound t1 f s, Fn.bound t2 (Fn.bound t1 f s) s, ?_, ?_,
    ⟨t2, rfl⟩, fun recv args => rfl, fun recv args => rfl⟩
  · rw [e1]
    exact getValue_of_ownData hown1
  · rw [e1, e2]
    exact getValue_of_ownData hown2

/-- Witness for C10 on the demonstration heap: after binding twice, the
detached read of `m` invoked through a foreign receiver still returns what
the original method returns on the instance. -/
theorem eager_rebinding_idempotent_witness :
    (match (getValue (autoBind (autoBind demoHeap 1 none).1 1 none).1 1
        (Key.str "m")).1 with
      | Val.fn g => call demoSem g (Val.obj 9) [Val.int 3]
      | _ => Except.error "not callable") = demoSem 0 (Val.obj 1) [Val.int 3] := by
  obtain ⟨g1, g2, h1, h2, _, _, h5⟩ := eager_rebinding_idempotent demoSem demoHeap 1
    none (Key.str "m") (Fn.orig 0) true false true
    (by decide) (protoDecB_iff _ (by decide)) (by decide) (by decide) (by decide)
  rw [h2]
  exact h5 (Val.obj 9) [Val.int 3]

/-! ## Construction-wrapper lemmas -/

/-- The heap sizes and all prototype links are preserved: holds for every
operation of the module, without any assumption on the heap. -/
def ProtoFrame (h h' : Heap) : Prop :=
  h'.objs.length = h.objs.length ∧
  ∀ x, (getObj h' x).map Obj.proto = (getObj h x).map Obj.proto

theorem protoFrameRefl (h : Heap) : ProtoFrame h h := ⟨rfl, fun _ => rfl⟩

theorem protoFrameTrans {h1 h2 h3 : Heap} (a : ProtoFrame h1 h2)
    (b : ProtoFrame h2 h3) : ProtoFrame h1 h3 :=
  ⟨b.1.trans a.1, fun x => (b.2 x).trans (a.2 x)⟩

theorem protoFrameDefine (h : Heap) (r : Nat) (k : Key) (d : Descr) :
    ProtoFrame h (defineProp h r k d) :=
  ⟨length_defineProp h r k d, proto_defineProp h r k d⟩

theorem protoFrameTag (h : Heap) (t : Nat) :
    ProtoFrame h { h with nextTag := t } := ⟨rfl, fun _ => rfl⟩

theorem protoFrame_runGetter (h : Heap) (g : Getter) (t : Nat) :
    ProtoFrame h (runGetter h g t).2 := by
  cases g with
  | lazyGet f sr m =>
    exact protoFrameTrans (protoFrameTag h (h.nextTag + 1))
      (protoFrameDefine { h with nextTag := h.nextTag + 1 } sr m
        (Descr.data (Val.fn (Fn.bound h.nextTag f sr)) true false true))
  | boundGet f tr k =>
    simp only [runGetter]
    split
    · exact protoFrameRefl h
    · exact protoFrameTrans (protoFrameTag h (h.nextTag + 1))
        (protoFrameDefine { h with nextTag := h.nextTag + 1 } t k
          (Descr.data (Val.fn (Fn.bound h.nextTag f t)) true false true))

theorem protoFrame_getValue (h : Heap) (r : Nat) (k : Key) :
    ProtoFrame h (getValue h r k).2 := by
  unfold getValue
  cases hg : getDescr h k h.objs.length r with
  | none => exact protoFrameRefl h
  | some d =>
    cases d with
    | data v w e c => exact protoFrameRefl h
    | accessor g e c => exact protoFrame_runGetter h g r

theorem protoFrame_bindEager (s : Nat) :
    ∀ (l : List Key) (h : Heap), ProtoFrame h (bindEager h s l) := by
  intro l
  induction l with
  | nil => intro h; exact protoFrameRefl h
  | cons m rest ih =>
    intro h
    rw [bindEager_cons]
    have hgv : ProtoFrame h (getValue h s m).2 := protoFrame_getValue h s m
    cases hv : (getValue h s m).1 with
    | fn f =>
      exact protoFrameTrans (protoFrameTrans hgv
        (protoFrameTrans (protoFrameTag _ _) (protoFrameDefine _ s m _))) (ih _)
    | undef => exact protoFrameTrans hgv (ih _)
    | int n => exact protoFrameTrans hgv (ih _)
    | str t => exact protoFrameTrans hgv (ih _)
    | obj r => exact protoFrameTrans hgv (ih _)

theorem protoFrame_bindLazy (s : Nat) :
    ∀ (l : List Key) (h : Heap), ProtoFrame h (bindLazy h s l) := by
  intro l
  induction l with
  | nil => intro h; exact protoFrameRefl h
  | cons m rest ih =>
    intro h
    rw [bindLazy_cons]
    rcases bindLazy_step h s m with he | ⟨f, w, e, c, _, he⟩ <;> rw [he]
    · exact ih h
    · exact protoFrameTrans (protoFrameDefine h s m _) (ih _)

theorem protoFrame_autoBind (h : Heap) (s : Nat) (opts : Option Options) :
    ProtoFrame h (autoBind h s opts).1 := by
  cases hlz : isLazy opts with
  | false => rw [autoBind_eager hlz]; exact protoFrame_bindEager s _ h
  | true => rw [autoBind_lazy hlz]; exact protoFrame_bindLazy s _ h

theorem construct_obj (h : Heap) (c : Ctor) (args : List Val) :
    getObj (construct h c args).1 (construct h c args).2 =
      some ⟨some c.protoRef, c.mkProps args⟩ := by
  show (h.objs ++ [_])[h.objs.length]? = _
  rw [List.getElem?_concat_length]

theorem construct_length (h : Heap) (c : Ctor) (args : List Val) :
    (construct h c args).1.objs.length = h.objs.length + 1 := by
  show (h.objs ++ [_]).length = _
  simp

theorem staticLookup_filter_not_reserved {statics : List (String × Descr)}
    {k : String} (hk : k ∉ RESERVED_CTOR_KEYS) :
    staticLookup (statics.filter (fun p => !(RESERVED_CTOR_KEYS.contains p.1))) k =
      staticLookup statics k := by
  induction statics with
  | nil => rfl
  | cons p ps ih =>
    unfold staticLookup at ih ⊢
    by_cases hres : p.1 ∈ RESERVED_CTOR_KEYS
    · have hne : p.1 ≠ k := fun he => hk (he ▸ hres)
      have hpk : (p.1 == k) = false := by simp [hne]
      rw [List.filter_cons_of_neg (by simp [hres]), ih]
      simp only [List.find?_cons, hpk]
    · have hfil : (p :: ps).filter (fun q => !(RESERVED_CTOR_KEYS.contains q.1)) =
          p :: ps.filter (fun q => !(RESERVED_CTOR_KEYS.contains q.1)) :=
        List.filter_cons_of_pos (by simp [hres])
      rw [hfil]
      cases hpk : (p.1 == k) with
      | true => simp only [List.find?_cons, hpk]
      | false => simp only [List.find?_cons, hpk]; exact ih

theorem staticLookup_filter_reserved {statics : List (String × Descr)}
    {k : String} (hk : k ∈ RESERVED_CTOR_KEYS) :
    staticLookup (statics.filter (fun p => !(RESERVED_CTOR_KEYS.contains p.1))) k =
      none := by
  unfold staticLookup
  have hnone : (statics.filter
      (fun p => !(RESERVED_CTOR_KEYS.contains p.1))).find? (fun p => p.1 == k) =
      none := by
    rw [List.find?_eq_none]
    intro x hx hpx
    have hmem := List.of_mem_filter hx
    have hxk : x.1 = k := by simpa using hpx
    rw [hxk] at hmem
    simp [hk] at hmem
  rw [hnone]
  rfl

/-- C9: the construction wrapper preserves the original constructor's display
name; it copies the original's own static properties except the reserved keys
(`length`, `name`, `prototype`, `arguments`, `caller`), which are not copied;
constructing through the wrapper is exactly constructing through the original
and then applying `autoBind` with default configuration; and every object so
constructed is an `instanceof` the original constructor (its prototype chain
contains the original's `prototype` object). -/
theorem boundClass_construction (h : Heap) (c : Ctor) (args : List Val) :
    (boundClass c).name = c.name ∧
    (∀ k, k ∉ RESERVED_CTOR_KEYS →
      staticLookup (boundClass c).statics k = staticLookup c.statics k) ∧
    (∀ k, k ∈ RESERVED_CTOR_KEYS → staticLookup (boundClass c).statics k = none) ∧
    constructWrapped h (boundClass c) args =
      autoBind (construct h c args).1 (construct h c args).2 none ∧
    instanceOf (constructWrapped h (boundClass c) args).1
      (constructWrapped h (boundClass c) args).2 c.protoRef = true := by
  refine ⟨rfl, fun k hk => staticLookup_filter_not_reserved hk,
    fun k hk => staticLookup_filter_reserved hk, rfl, ?_⟩
  have hc := construct_obj h c args
  have hpf : ProtoFrame (construct h c args).1
      (autoBind (construct h c args).1 (construct h c args).2 none).1 :=
    protoFrame_autoBind (construct h c args).1 (construct h c args).2 none
  have hproto := hpf.2 (construct h c args).2
  rw [hc] at hproto
  have hr2 : (constructWrapped h (boundClass c) args).2 = (construct h c args).2 := rfl
  have hh2 : (constructWrapped h (boundClass c) args).1 =
      (autoBind (construct h c args).1 (construct h c args).2 none).1 := rfl
  rw [hr2, hh2]
  cases hg2 : getObj (autoBind (construct h c args).1 (construct h c args).2 none).1
      (construct h c args).2 with
  | none => rw [hg2] at hproto; simp at hproto
  | some o2 =>
    rw [hg2] at hproto
    simp only [Option.map_some', Option.some.injEq] at hproto
    unfold instanceOf
    rw [hg2]
    show protoChainContains
      (autoBind (construct h c args).1 (construct h c args).2 none).1
      (autoBind (construct h c args).1 (construct h c args).2 none).1.objs.length
      o2.proto c.protoRef = true
    rw [hproto]
    have hlen : (autoBind (construct h c args).1
        (construct h c args).2 none).1.objs.length = h.objs.length + 1 :=
      hpf.1.trans (construct_length h c args)
    rw [hlen]
    show protoChainContains _ (h.objs.length + 1) (some c.protoRef) c.protoRef = true
    unfold protoChainContains
    simp

/-- A demonstration constructor for the C9 witness: prototype is object 0 of
`demoHeap`, one surviving static `version`, one reserved static `caller`, and
a body assigning one data field. -/
def demoCtor : Ctor :=
  { name := "Foo"
    protoRef := 0
    statics := [("version", Descr.data (Val.int 1) true true true),
                ("caller", Descr.data (Val.int 9) true true true)]
    mkProps := fun args => [(Key.str "x", Descr.data (Val.int args.length) true true true)] }

/-- Witness for C9 on `demoCtor` over `demoHeap`: the wrapper keeps the name,
keeps the non-reserved static, drops the reserved one, and the constructed
instance is an `instanceof` the original constructor. -/
theorem boundClass_construction_witness :
    (boundClass demoCtor).name = "Foo" ∧
    staticLookup (boundClass demoCtor).statics "version" =
      staticLookup demoCtor.statics "version" ∧
    staticLookup (boundClass demoCtor).statics "caller" = none ∧
    instanceOf (constructWrapped demoHeap (boundClass demoCtor) []).1
      (constructWrapped demoHeap (boundClass demoCtor) []).2 demoCtor.protoRef =
      true := by
  have t := boundClass_construction demoHeap demoCtor []
  exact ⟨t.1, t.2.1 "version" (by decide), t.2.2.1 "caller" (by decide), t.2.2.2.2⟩

end AutoBindJS
